import Mathlib

/-!
Verification of the natural-language specification of `merkly/mtree.py`
(a Merkle-tree library) against a shallow embedding of its code.

Modelling conventions:
* Byte strings (`bytes` / `str` in the Python source) are modelled by an
  arbitrary type `α` with decidable equality and a default element; the
  pluggable binary hash function `hash_function(a, b)` is an arbitrary
  `f : α → α → α`.  The empty byte string `b""` used when hashing a leaf
  (`hash_function(x.encode(), bytes())`) is modelled by a distinguished
  value `emptyBytes`.
* Python list indexing `l[i]` is modelled by `List.getD l i default`;
  every reachable access in the embedded code is in bounds, so the
  default is never observable.
* Python exceptions are modelled with `Except String` / `Option`:
  `make_proof` returns `Except.error _` where the source raises
  `ValueError`, and `verify` returns `none` where the source would raise
  an `AttributeError` (accessing `.data` on a non-`Node` value).
-/

/-- Side tag of a sibling node, from `merkly/node.py`.
Modelled from the spec: `merkly/node.py` is not under `src/`; §3 describes
`Side` as a two-valued tag `LEFT`/`RIGHT`. -/
inductive Side where
  | LEFT
  | RIGHT
deriving DecidableEq, Repr, Inhabited

/-- A proof node, from `merkly/node.py`.
Modelled from the spec: `merkly/node.py` is not under `src/`; §3 describes
`ProofNode` as an immutable pair of a hash value and a `Side`. -/
structure Node (α : Type) where
  data : α
  side : Side
deriving DecidableEq, Repr, Inhabited

/-- Python's `list.index` as a total function: index of the first
occurrence of `x`, or `none` (the source raises `ValueError`, which
`make_proof` catches and re-raises). -/
def listIndex {α : Type} [DecidableEq α] (x : α) : List α → Option Nat
  | [] => none
  | a :: rest => if a = x then some 0 else (listIndex x rest).map (· + 1)

theorem listIndex_lt_length {α : Type} [DecidableEq α] {x : α} :
    ∀ {l : List α} {i : Nat}, listIndex x l = some i → i < l.length := by
  intro l
  induction l with
  | nil => intro i h; simp [listIndex] at h
  | cons a rest ih =>
    intro i h
    simp only [List.length_cons]
    by_cases hax : a = x
    · simp [listIndex, hax] at h
      omega
    · simp [listIndex, hax] at h
      obtain ⟨j, hj, rfl⟩ := h
      have := ih hj
      omega

theorem listIndex_getD {α : Type} [DecidableEq α] {x d : α} :
    ∀ {l : List α} {i : Nat}, listIndex x l = some i → l.getD i d = x := by
  intro l
  induction l with
  | nil => intro i h; simp [listIndex] at h
  | cons a rest ih =>
    intro i h
    by_cases hax : a = x
    · simp [listIndex, hax] at h
      subst h
      simpa using hax
    · simp [listIndex, hax] at h
      obtain ⟨j, hj, rfl⟩ := h
      simpa using ih hj

theorem listIndex_isSome_of_mem {α : Type} [DecidableEq α] {x : α} :
    ∀ {l : List α}, x ∈ l → ∃ i, listIndex x l = some i := by
  intro l
  induction l with
  | nil => intro h; simp at h
  | cons a rest ih =>
    intro h
    by_cases hax : a = x
    · exact ⟨0, by simp [listIndex, hax]⟩
    · have hmem : x ∈ rest := by
        rcases List.mem_cons.mp h with h1 | h1
        · exact absurd h1.symm hax
        · exact h1
      obtain ⟨i, hi⟩ := ih hmem
      exact ⟨i + 1, by simp [listIndex, hax, hi]⟩

theorem listIndex_eq_none_of_not_mem {α : Type} [DecidableEq α] {x : α} :
    ∀ {l : List α}, x ∉ l → listIndex x l = none := by
  intro l
  induction l with
  | nil => intro _; rfl
  | cons a rest ih =>
    intro h
    have hax : ¬ a = x := fun hax => h (by simp [hax])
    have hrest : x ∉ rest := fun hm => h (by simp [hm])
    simp [listIndex, hax, ih hrest]

/-- Power-of-two test from `merkly/utils.py`.
Modelled from the spec: `merkly/utils.py` is not under `src/`; §4.3 uses
the predicate "`len(leafHashes)` is an exact power of two" (so `1 = 2^0`
counts, as it does for the standard `n & (n-1) == 0 and n != 0` test). -/
def is_power_2 : Nat → Bool
  | 0 => false
  | 1 => true
  | n + 2 => decide ((n + 2) % 2 = 0) && is_power_2 ((n + 2) / 2)

theorem is_power_2_pow (k : Nat) : is_power_2 (2 ^ k) = true := by
  induction k with
  | zero => simp [is_power_2]
  | succ k ih =>
    have h2 : 2 ^ (k + 1) = 2 ^ k * 2 := by ring
    have hge : 2 ≤ 2 ^ (k + 1) := by
      calc 2 = 2 ^ 1 := rfl
      _ ≤ 2 ^ (k + 1) := Nat.pow_le_pow_right (by omega) (by omega)
    obtain ⟨m, hm⟩ : ∃ m, 2 ^ (k + 1) = m + 2 := ⟨2 ^ (k + 1) - 2, by omega⟩
    rw [hm]
    have hmod : (m + 2) % 2 = 0 := by
      have : (2 ^ k * 2) % 2 = 0 := Nat.mul_mod_left _ 2
      omega
    have hdiv : (m + 2) / 2 = 2 ^ k := by
      rw [← hm, h2]
      exact Nat.mul_div_cancel _ (by omega)
    simp [is_power_2, hmod, hdiv, ih]

theorem exists_pow_of_is_power_2 : ∀ {n : Nat}, is_power_2 n = true → ∃ k, n = 2 ^ k := by
  intro n
  induction n using Nat.strong_induction_on with
  | _ n ih =>
    intro h
    match n with
    | 0 => simp [is_power_2] at h
    | 1 => exact ⟨0, rfl⟩
    | m + 2 =>
      simp only [is_power_2, Bool.and_eq_true, decide_eq_true_eq] at h
      obtain ⟨hmod, hrec⟩ := h
      obtain ⟨k, hk⟩ := ih ((m + 2) / 2) (by omega) hrec
      exact ⟨k + 1, by omega⟩

/-- Pair-slicing helper from `merkly/utils.py`.
Modelled from the spec: `merkly/utils.py` is not under `src/`; §4.2/§4.3
describe the level step as scanning "left-to-right in non-overlapping
pairs" with an unpaired trailing element kept alone, which is exactly a
partition into `[x, y]` chunks with a final singleton on odd length. -/
def slice_in_pairs {α : Type} : List α → List (List α)
  | [] => []
  | [a] => [[a]]
  | a :: b :: rest => [a, b] :: slice_in_pairs rest

/-- `MerkleTree.up_layer` from `merkly/mtree.py`: builds the next tree
level by combining each pair and passing a trailing singleton through
unchanged.  The source accumulates with a `for`-loop and `append`, which
is the same as mapping over the pair slices. -/
def up_layer {α : Type} [Inhabited α] (f : α → α → α) (leaves : List α) : List α :=
  (slice_in_pairs leaves).map
    (fun pair => if pair.length = 1 then pair.getD 0 default else f (pair.getD 0 default) (pair.getD 1 default))

/-- Structural one-step pairing: the common functional core of
`up_layer` and of the level loop inside `make_root`, used to reason
about both. -/
def pairUp {α : Type} (f : α → α → α) : List α → List α
  | a :: b :: rest => f a b :: pairUp f rest
  | l => l

theorem up_layer_eq_pairUp {α : Type} [Inhabited α] (f : α → α → α) :
    ∀ l : List α, up_layer f l = pairUp f l := by
  intro l
  induction l using slice_in_pairs.induct with
  | case1 => rfl
  | case2 a => rfl
  | case3 a b rest ih =>
    simp only [up_layer, slice_in_pairs, List.map_cons] at ih ⊢
    rw [ih]
    simp [pairUp]

theorem pairUp_length {α : Type} (f : α → α → α) :
    ∀ l : List α, (pairUp f l).length = (l.length + 1) / 2 := by
  intro l
  induction l using slice_in_pairs.induct with
  | case1 => simp [pairUp]
  | case2 a => simp [pairUp]
  | case3 a b rest ih =>
    simp only [pairUp, List.length_cons]
    omega

theorem up_layer_length {α : Type} [Inhabited α] (f : α → α → α) (l : List α) :
    (up_layer f l).length = (l.length + 1) / 2 := by
  rw [up_layer_eq_pairUp]
  exact pairUp_length f l

theorem pairUp_getD_even {α : Type} [Inhabited α] (f : α → α → α) :
    ∀ (l : List α) (i : Nat), 2 * i + 1 < l.length →
      (pairUp f l).getD i default = f (l.getD (2 * i) default) (l.getD (2 * i + 1) default) := by
  intro l
  induction l using slice_in_pairs.induct with
  | case1 => intro i h; simp at h
  | case2 a =>
    intro i h
    simp only [List.length_singleton] at h
    omega
  | case3 a b rest ih =>
    intro i h
    match i with
    | 0 => simp [pairUp]
    | j + 1 =>
      have hlen : 2 * j + 1 < rest.length := by
        simp only [List.length_cons] at h
        omega
      have h2 : 2 * (j + 1) = 2 * j + 1 + 1 := by omega
      simp only [pairUp, h2, List.getD_cons_succ]
      exact ih j hlen

theorem pairUp_getD_carry {α : Type} [Inhabited α] (f : α → α → α) :
    ∀ (l : List α) (i : Nat), 2 * i + 1 = l.length →
      (pairUp f l).getD i default = l.getD (2 * i) default := by
  intro l
  induction l using slice_in_pairs.induct with
  | case1 => intro i h; simp at h
  | case2 a =>
    intro i h
    simp only [List.length_singleton] at h
    have hi : i = 0 := by omega
    subst hi
    simp [pairUp]
  | case3 a b rest ih =>
    intro i h
    match i with
    | 0 =>
      simp only [List.length_cons] at h
      omega
    | j + 1 =>
      have hlen : 2 * j + 1 = rest.length := by
        simp only [List.length_cons] at h
        omega
      have h2 : 2 * (j + 1) = 2 * j + 1 + 1 := by omega
      simp only [pairUp, h2, List.getD_cons_succ]
      exact ih j hlen

theorem pairUp_append_even {α : Type} (f : α → α → α) :
    ∀ (l₁ l₂ : List α), l₁.length % 2 = 0 →
      pairUp f (l₁ ++ l₂) = pairUp f l₁ ++ pairUp f l₂ := by
  intro l₁
  induction l₁ using slice_in_pairs.induct with
  | case1 => intro l₂ _; rfl
  | case2 a => intro l₂ h; simp at h
  | case3 a b rest ih =>
    intro l₂ h
    have hrest : rest.length % 2 = 0 := by
      simp only [List.length_cons] at h
      omega
    simp [pairUp, ih l₂ hrest]

/-- One iteration of the level loop inside `MerkleTree.make_root`: the
source appends `f(leafs[i], leafs[i+1])` for `i in range(0, len(leafs) - 1, 2)`
(that range has `len(leafs) / 2` elements, here enumerated as `2 * i` for
`i < len / 2`) and then appends the trailing element `leafs[-1]` when the
level length is odd. -/
def make_root_step {α : Type} [Inhabited α] (f : α → α → α) (leafs : List α) : List α :=
  (List.range (leafs.length / 2)).map
      (fun i => f (leafs.getD (2 * i) default) (leafs.getD (2 * i + 1) default))
    ++ (if leafs.length % 2 = 1 then [leafs.getD (leafs.length - 1) default] else [])

theorem make_root_step_eq_pairUp {α : Type} [Inhabited α] (f : α → α → α) :
    ∀ l : List α, make_root_step f l = pairUp f l := by
  intro l
  induction l using slice_in_pairs.induct with
  | case1 => simp [make_root_step, pairUp]
  | case2 a => simp [make_root_step, pairUp]
  | case3 a b rest ih =>
    have hpair : pairUp f (a :: b :: rest) = f a b :: pairUp f rest := rfl
    rw [hpair, ← ih]
    show make_root_step f (a :: b :: rest) = f a b :: make_root_step f rest
    unfold make_root_step
    have hdiv : (a :: b :: rest).length / 2 = rest.length / 2 + 1 := by
      simp only [List.length_cons]
      omega
    rw [hdiv, List.range_succ_eq_map, List.map_cons, List.map_map, List.cons_append]
    have hmap : List.map
          ((fun i => f ((a :: b :: rest).getD (2 * i) default) ((a :: b :: rest).getD (2 * i + 1) default)) ∘ Nat.succ)
          (List.range (rest.length / 2))
        = List.map (fun i => f (rest.getD (2 * i) default) (rest.getD (2 * i + 1) default))
          (List.range (rest.length / 2)) := by
      apply List.map_congr_left
      intro i _
      have h2 : 2 * Nat.succ i = 2 * i + 1 + 1 := by omega
      have h3 : 2 * Nat.succ i + 1 = 2 * i + 1 + 1 + 1 := by omega
      simp only [Function.comp_apply, h2, h3, List.getD_cons_succ]
    have hif : (if (a :: b :: rest).length % 2 = 1
          then [(a :: b :: rest).getD ((a :: b :: rest).length - 1) default] else [])
        = (if rest.length % 2 = 1 then [rest.getD (rest.length - 1) default] else []) := by
      rcases Nat.even_or_odd rest.length with he | ho
      · have h0 : rest.length % 2 = 0 := Nat.even_iff.mp he
        have h1 : ¬ (a :: b :: rest).length % 2 = 1 := by simp only [List.length_cons]; omega
        rw [if_neg h1, if_neg (by omega)]
      · have h0 : rest.length % 2 = 1 := Nat.odd_iff.mp ho
        have h1 : (a :: b :: rest).length % 2 = 1 := by simp only [List.length_cons]; omega
        have hidx : (a :: b :: rest).length - 1 = (rest.length - 1) + 1 + 1 := by
          simp only [List.length_cons]
          omega
        rw [if_pos h1, if_pos h0, hidx]
        simp only [List.getD_cons_succ]
    rw [hmap, hif]
    rfl

/-- `MerkleTree.make_root` from `merkly/mtree.py`: loops
`while len(leafs) > 1`, replacing the level by `make_root_step`, then
returns `leafs[0]`.  On an empty input the source raises `IndexError`
(construction forbids empty trees); the model returns `default` there. -/
def make_root {α : Type} [Inhabited α] (f : α → α → α) (leafs : List α) : α :=
  if _h : 1 < leafs.length then make_root f (make_root_step f leafs)
  else leafs.getD 0 default
termination_by leafs.length
decreasing_by
  rw [make_root_step_eq_pairUp, pairUp_length]
  omega

/-- Root computation as claim C2 words it: repeatedly replace each
non-overlapping left-to-right pair of the current level by its
combination, carry an unpaired trailing element of an odd-length level
forward unchanged, and repeat until exactly one element remains, which
is returned.  This is the claim-side description to compare `make_root`
against. -/
def spec_root {α : Type} [Inhabited α] (f : α → α → α) (l : List α) : α :=
  if _h : 1 < l.length then spec_root f (pairUp f l)
  else l.getD 0 default
termination_by l.length
decreasing_by
  rw [pairUp_length]
  omega

theorem make_root_of_one_lt {α : Type} [Inhabited α] (f : α → α → α) (l : List α)
    (h : 1 < l.length) : make_root f l = make_root f (pairUp f l) := by
  rw [← make_root_step_eq_pairUp]
  conv_lhs => rw [make_root]
  rw [dif_pos h]

theorem make_root_of_le_one {α : Type} [Inhabited α] (f : α → α → α) (l : List α)
    (h : ¬ 1 < l.length) : make_root f l = l.getD 0 default := by
  conv_lhs => rw [make_root]
  rw [dif_neg h]

theorem spec_root_of_one_lt {α : Type} [Inhabited α] (f : α → α → α) (l : List α)
    (h : 1 < l.length) : spec_root f l = spec_root f (pairUp f l) := by
  conv_lhs => rw [spec_root]
  rw [dif_pos h]

theorem spec_root_of_le_one {α : Type} [Inhabited α] (f : α → α → α) (l : List α)
    (h : ¬ 1 < l.length) : spec_root f l = l.getD 0 default := by
  conv_lhs => rw [spec_root]
  rw [dif_neg h]

theorem spec_root_single {α : Type} [Inhabited α] (f : α → α → α) (a : α) :
    spec_root f [a] = a := by
  rw [spec_root_of_le_one f [a] (by simp)]
  rfl

theorem spec_root_pair {α : Type} [Inhabited α] (f : α → α → α) (a b : α) :
    spec_root f [a, b] = f a b := by
  rw [spec_root_of_one_lt f [a, b] (by simp)]
  have hp : pairUp f [a, b] = [f a b] := rfl
  rw [hp, spec_root_single]

theorem make_root_eq_spec_root {α : Type} [Inhabited α] (f : α → α → α) :
    ∀ l : List α, make_root f l = spec_root f l := by
  have main : ∀ (n : Nat) (l : List α), l.length ≤ n → make_root f l = spec_root f l := by
    intro n
    induction n with
    | zero =>
      intro l hl
      have : ¬ 1 < l.length := by omega
      rw [make_root_of_le_one f l this, spec_root_of_le_one f l this]
    | succ n ih =>
      intro l hl
      by_cases h1 : 1 < l.length
      · rw [make_root_of_one_lt f l h1, spec_root_of_one_lt f l h1]
        apply ih
        rw [pairUp_length]
        omega
      · rw [make_root_of_le_one f l h1, spec_root_of_le_one f l h1]
  intro l
  exact main l.length l (le_refl _)

theorem make_root_single {α : Type} [Inhabited α] (f : α → α → α) (a : α) :
    make_root f [a] = a := by
  rw [make_root_eq_spec_root]
  exact spec_root_single f a

theorem make_root_pair {α : Type} [Inhabited α] (f : α → α → α) (a b : α) :
    make_root f [a, b] = f a b := by
  rw [make_root_eq_spec_root]
  exact spec_root_pair f a b

theorem spec_root_append_pow {α : Type} [Inhabited α] (f : α → α → α) :
    ∀ (k : Nat) (l₁ l₂ : List α), l₁.length = 2 ^ k → l₂.length = 2 ^ k →
      spec_root f (l₁ ++ l₂) = f (spec_root f l₁) (spec_root f l₂) := by
  intro k
  induction k with
  | zero =>
    intro l₁ l₂ h1 h2
    obtain ⟨a, rfl⟩ := List.length_eq_one.mp (by simpa using h1)
    obtain ⟨b, rfl⟩ := List.length_eq_one.mp (by simpa using h2)
    rw [spec_root_single, spec_root_single]
    exact spec_root_pair f a b
  | succ k ih =>
    intro l₁ l₂ h1 h2
    have hpow : 2 ^ (k + 1) = 2 * 2 ^ k := by ring
    have hkpos : 1 ≤ 2 ^ k := Nat.one_le_two_pow
    have hlen1 : 1 < l₁.length := by omega
    have hlen2 : 1 < l₂.length := by omega
    have hlen12 : 1 < (l₁ ++ l₂).length := by
      rw [List.length_append]
      omega
    have heven : l₁.length % 2 = 0 := by omega
    rw [spec_root_of_one_lt f _ hlen12, pairUp_append_even f l₁ l₂ heven]
    have hp1 : (pairUp f l₁).length = 2 ^ k := by rw [pairUp_length]; omega
    have hp2 : (pairUp f l₂).length = 2 ^ k := by rw [pairUp_length]; omega
    rw [ih (pairUp f l₁) (pairUp f l₂) hp1 hp2]
    rw [← spec_root_of_one_lt f l₁ hlen1, ← spec_root_of_one_lt f l₂ hlen2]

theorem make_root_append_pow {α : Type} [Inhabited α] (f : α → α → α)
    (k : Nat) (l₁ l₂ : List α) (h1 : l₁.length = 2 ^ k) (h2 : l₂.length = 2 ^ k) :
    make_root f (l₁ ++ l₂) = f (make_root f l₁) (make_root f l₂) := by
  rw [make_root_eq_spec_root, make_root_eq_spec_root, make_root_eq_spec_root]
  exact spec_root_append_pow f k l₁ l₂ h1 h2

/-- `MerkleTree.mix_tree` from `merkly/mtree.py`: the general (non
power-of-two) proof generator, climbing one level per recursive call.
The source returns `proof` when `len(leaves) == 1`; on the empty list
the source would recurse forever (`up_layer([]) == []`), but that call
is unreachable (`make_proof`'s index lookup fails on an empty list
before `mix_tree` is reached), so the model returns `proof` there too. -/
def mix_tree {α : Type} [Inhabited α] (f : α → α → α)
    (leaves : List α) (proof : List (Node α)) (leaf_index : Nat) : List (Node α) :=
  if leaves.length ≤ 1 then proof
  else
    let proof' :=
      if leaf_index % 2 = 0 then
        if leaf_index + 1 < leaves.length then
          proof ++ [⟨leaves.getD (leaf_index + 1) default, Side.RIGHT⟩]
        else proof
      else proof ++ [⟨leaves.getD (leaf_index - 1) default, Side.LEFT⟩]
    mix_tree f (up_layer f leaves) proof' (leaf_index / 2)
termination_by leaves.length
decreasing_by
  rw [up_layer_length]
  omega

/-- `half` from `merkly/utils.py`.
Modelled from the spec: `merkly/utils.py` is not under `src/`; §4.3(a)
splits "the current slice into a left half and a right half of equal
size", i.e. at index `len // 2`. -/
def half {α : Type} (l : List α) : List α × List α :=
  (l.take (l.length / 2), l.drop (l.length / 2))

/-- `MerkleTree.make_proof` from `merkly/mtree.py`.  `leafs.index(leaf)`
is `listIndex`; a `none` lookup models the raised (and re-raised)
`ValueError`.  The comparison `index < len(leafs) / 2` in the source is
Python float division, hence `2 * index < len(leafs)` here. -/
def make_proof {α : Type} [DecidableEq α] [Inhabited α] (f : α → α → α)
    (leafs : List α) (proof : List (Node α)) (leaf : α) : Except String (List (Node α)) :=
  match hidx : listIndex leaf leafs with
  | none => .error "Leaf does not exist in the tree"
  | some index =>
    if is_power_2 leafs.length = false then
      .ok (mix_tree f leafs [] index)
    else if leafs.length = 2 then
      if index = 1 then .ok ((proof ++ [Node.mk (leafs.getD 0 default) Side.LEFT]).reverse)
      else .ok ((proof ++ [Node.mk (leafs.getD 1 default) Side.RIGHT]).reverse)
    else
      if 2 * index < leafs.length then
        make_proof f (half leafs).1 (proof ++ [Node.mk (make_root f (half leafs).2) Side.RIGHT]) leaf
      else
        make_proof f (half leafs).2 (proof ++ [Node.mk (make_root f (half leafs).1) Side.LEFT]) leaf
termination_by leafs.length
decreasing_by
  · have hlt := listIndex_lt_length hidx
    simp only [half, List.length_take]
    omega
  · have hlt := listIndex_lt_length hidx
    simp only [half, List.length_drop]
    omega

/-- The `MerkleTree` class of `merkly/mtree.py`: it stores the hash
function, the raw leaves and (in this model) the value `emptyBytes`
standing for Python's `bytes()`.  Construction-time validation
(`validate_leafs`, `validate_hash_function` from `merkly/utils.py`, not
under `src/`) is modelled from the spec, §7: the only relevant
InvalidInput condition is an empty leaf sequence, so theorems carry
non-emptiness hypotheses instead of a constructor check. -/
structure MerkleTree (α : Type) where
  hash_function : α → α → α
  emptyBytes : α
  raw_leafs : List α

/-- `MerkleTree.__hash_leafs`: each raw leaf `x` is hashed as
`hash_function(x.encode(), bytes())`. -/
def MerkleTree.leafs {α : Type} (t : MerkleTree α) : List α :=
  t.raw_leafs.map (fun x => t.hash_function x t.emptyBytes)

/-- The `root` property of `MerkleTree`. -/
def MerkleTree.root {α : Type} [Inhabited α] (t : MerkleTree α) : α :=
  make_root t.hash_function t.leafs

/-- `MerkleTree.proof`: hashes the raw leaf and calls `make_proof` with
an empty accumulator. -/
def MerkleTree.proof {α : Type} [DecidableEq α] [Inhabited α] (t : MerkleTree α)
    (raw_leaf : α) : Except String (List (Node α)) :=
  make_proof t.hash_function t.leafs [] (t.hash_function raw_leaf t.emptyBytes)

/-- The inner function `concat_nodes` of `MerkleTree.verify`: the
accumulator is `Sum.inl` while it is still the raw starting hash
(`isinstance(left, Node) is not True` in the source) and `Sum.inr` once
it has been wrapped into a positioned `Node`. -/
def concat_nodes {α : Type} (f : α → α → α) (left : α ⊕ Node α) (right : Node α) :
    α ⊕ Node α :=
  match left with
  | .inl start_node =>
    if right.side = Side.RIGHT then .inr ⟨f start_node right.data, Side.LEFT⟩
    else .inr ⟨f right.data start_node, Side.RIGHT⟩
  | .inr l =>
    if right.side = Side.RIGHT then .inr ⟨f l.data right.data, Side.LEFT⟩
    else .inr ⟨f right.data l.data, Side.RIGHT⟩

/-- `MerkleTree.verify`: `reduce(concat_nodes, full_proof)` with
`full_proof = [leafHash(raw_leaf)] ++ proof` is a left fold whose
accumulator starts as the raw hash.  The final `.data` access raises
`AttributeError` when the fold result is still the raw hash — exactly
when `proof` is empty — which the model renders as `none`. -/
def MerkleTree.verify {α : Type} [DecidableEq α] [Inhabited α] (t : MerkleTree α)
    (proof : List (Node α)) (raw_leaf : α) : Option Bool :=
  match proof.foldl (concat_nodes t.hash_function)
      (.inl (t.hash_function raw_leaf t.emptyBytes)) with
  | .inl _ => none
  | .inr n => some (decide (n.data = t.root))

/-- Hash value accumulated by one verification fold step: a RIGHT
sibling is combined to the right of the accumulator, a LEFT sibling to
the left.  (The side written into the intermediate node never influences
later steps.) -/
def fold_step {α : Type} (f : α → α → α) (acc : α) (n : Node α) : α :=
  if n.side = Side.RIGHT then f acc n.data else f n.data acc

/-- Replay of a whole proof sequence starting from a leaf hash. -/
def fold_hash {α : Type} (f : α → α → α) (h : α) (p : List (Node α)) : α :=
  p.foldl (fold_step f) h

theorem concat_nodes_inl {α : Type} (f : α → α → α) (a : α) (n : Node α) :
    concat_nodes f (.inl a) n
      = .inr ⟨fold_step f a n, if n.side = Side.RIGHT then Side.LEFT else Side.RIGHT⟩ := by
  by_cases hr : n.side = Side.RIGHT <;> simp [concat_nodes, fold_step, hr]

theorem concat_nodes_inr {α : Type} (f : α → α → α) (a : α) (s : Side) (n : Node α) :
    concat_nodes f (.inr ⟨a, s⟩) n
      = .inr ⟨fold_step f a n, if n.side = Side.RIGHT then Side.LEFT else Side.RIGHT⟩ := by
  by_cases hr : n.side = Side.RIGHT <;> simp [concat_nodes, fold_step, hr]

theorem foldl_concat_nodes_inr {α : Type} (f : α → α → α) :
    ∀ (p : List (Node α)) (h : α) (s : Side),
      ∃ s', p.foldl (concat_nodes f) (.inr ⟨h, s⟩) = .inr ⟨fold_hash f h p, s'⟩ := by
  intro p
  induction p with
  | nil => intro h s; exact ⟨s, rfl⟩
  | cons n rest ih =>
    intro h s
    obtain ⟨s', hs'⟩ := ih (fold_step f h n) (if n.side = Side.RIGHT then Side.LEFT else Side.RIGHT)
    refine ⟨s', ?_⟩
    rw [List.foldl_cons, concat_nodes_inr, hs']
    rfl

theorem verify_nil {α : Type} [DecidableEq α] [Inhabited α] (t : MerkleTree α)
    (raw_leaf : α) : t.verify [] raw_leaf = none := rfl

theorem verify_eq_fold {α : Type} [DecidableEq α] [Inhabited α] (t : MerkleTree α)
    (p : List (Node α)) (raw_leaf : α) (hp : p ≠ []) :
    t.verify p raw_leaf
      = some (decide
          (fold_hash t.hash_function (t.hash_function raw_leaf t.emptyBytes) p = t.root)) := by
  match p, hp with
  | n :: rest, _ =>
    unfold MerkleTree.verify
    rw [List.foldl_cons, concat_nodes_inl]
    obtain ⟨s', hs'⟩ := foldl_concat_nodes_inr t.hash_function rest
      (fold_step t.hash_function (t.hash_function raw_leaf t.emptyBytes) n)
      (if n.side = Side.RIGHT then Side.LEFT else Side.RIGHT)
    rw [hs']
    rfl

theorem mix_tree_of_le_one {α : Type} [Inhabited α] (f : α → α → α)
    (leaves : List α) (pf : List (Node α)) (idx : Nat) (h : leaves.length ≤ 1) :
    mix_tree f leaves pf idx = pf := by
  conv_lhs => rw [mix_tree]
  rw [if_pos h]

theorem mix_tree_step {α : Type} [Inhabited α] (f : α → α → α)
    (leaves : List α) (pf : List (Node α)) (idx : Nat) (h : 1 < leaves.length) :
    mix_tree f leaves pf idx
      = mix_tree f (up_layer f leaves)
          (if idx % 2 = 0 then
            if idx + 1 < leaves.length then
              pf ++ [⟨leaves.getD (idx + 1) default, Side.RIGHT⟩]
            else pf
          else pf ++ [⟨leaves.getD (idx - 1) default, Side.LEFT⟩])
          (idx / 2) := by
  conv_lhs => rw [mix_tree]
  rw [if_neg (by omega)]

theorem mix_tree_ctx {α : Type} [Inhabited α] (f : α → α → α) :
    ∀ (n : Nat) (leaves : List α), leaves.length ≤ n →
      ∀ (p q : List (Node α)) (idx : Nat),
        mix_tree f leaves (p ++ q) idx = p ++ mix_tree f leaves q idx := by
  intro n
  induction n with
  | zero =>
    intro leaves hl p q idx
    rw [mix_tree_of_le_one f _ _ _ (by omega), mix_tree_of_le_one f _ _ _ (by omega)]
  | succ n ih =>
    intro leaves hl p q idx
    by_cases h1 : 1 < leaves.length
    · rw [mix_tree_step f _ _ _ h1, mix_tree_step f _ _ _ h1]
      have hup : (up_layer f leaves).length ≤ n := by
        rw [up_layer_length]
        omega
      by_cases he : idx % 2 = 0
      · by_cases hlt : idx + 1 < leaves.length
        · rw [if_pos he, if_pos he, if_pos hlt, if_pos hlt, List.append_assoc]
          exact ih _ hup p _ _
        · rw [if_pos he, if_pos he, if_neg hlt, if_neg hlt]
          exact ih _ hup p _ _
      · rw [if_neg he, if_neg he, List.append_assoc]
        exact ih _ hup p _ _
    · rw [mix_tree_of_le_one f _ _ _ (by omega), mix_tree_of_le_one f _ _ _ (by omega)]

theorem mix_tree_append {α : Type} [Inhabited α] (f : α → α → α)
    (leaves : List α) (pf : List (Node α)) (idx : Nat) :
    mix_tree f leaves pf idx = pf ++ mix_tree f leaves [] idx := by
  have h := mix_tree_ctx f leaves.length leaves (le_refl _) pf [] idx
  rw [List.append_nil] at h
  exact h

theorem fold_hash_append {α : Type} (f : α → α → α) (h : α) (p q : List (Node α)) :
    fold_hash f h (p ++ q) = fold_hash f (fold_hash f h p) q := by
  simp [fold_hash]

theorem mix_tree_fold {α : Type} [Inhabited α] (f : α → α → α) :
    ∀ (n : Nat) (leaves : List α), leaves.length ≤ n →
      ∀ idx : Nat, idx < leaves.length →
        fold_hash f (leaves.getD idx default) (mix_tree f leaves [] idx)
          = make_root f leaves := by
  intro n
  induction n with
  | zero =>
    intro leaves hl idx hi
    omega
  | succ n ih =>
    intro leaves hl idx hi
    by_cases h1 : 1 < leaves.length
    · rw [mix_tree_step f _ _ _ h1, mix_tree_append, fold_hash_append]
      have hup : (up_layer f leaves).length ≤ n := by
        rw [up_layer_length]
        omega
      have hidx2 : idx / 2 < (up_layer f leaves).length := by
        rw [up_layer_length]
        omega
      have hparent : fold_hash f (leaves.getD idx default)
          (if idx % 2 = 0 then
            if idx + 1 < leaves.length then
              ([] : List (Node α)) ++ [⟨leaves.getD (idx + 1) default, Side.RIGHT⟩]
            else []
          else ([] : List (Node α)) ++ [⟨leaves.getD (idx - 1) default, Side.LEFT⟩])
          = (up_layer f leaves).getD (idx / 2) default := by
        rw [up_layer_eq_pairUp]
        by_cases he : idx % 2 = 0
        · by_cases hlt : idx + 1 < leaves.length
          · rw [if_pos he, if_pos hlt]
            have h2i : 2 * (idx / 2) = idx := by omega
            rw [pairUp_getD_even f leaves (idx / 2) (by omega), h2i]
            simp [fold_hash, fold_step]
          · rw [if_pos he, if_neg hlt]
            have h2i : 2 * (idx / 2) = idx := by omega
            rw [pairUp_getD_carry f leaves (idx / 2) (by omega), h2i]
            rfl
        · rw [if_neg he]
          have h2i : 2 * (idx / 2) = idx - 1 := by omega
          rw [pairUp_getD_even f leaves (idx / 2) (by omega), h2i]
          have hsucc : idx - 1 + 1 = idx := by omega
          rw [hsucc]
          simp [fold_hash, fold_step]
      rw [hparent, ih (up_layer f leaves) hup (idx / 2) hidx2]
      rw [make_root_of_one_lt f leaves h1, up_layer_eq_pairUp]
    · have hlen1 : leaves.length = 1 := by omega
      rw [mix_tree_of_le_one f _ _ _ (by omega)]
      rw [make_root_of_le_one f _ (by omega)]
      have hz : idx = 0 := by omega
      subst hz
      rfl

theorem mix_tree_ne_nil {α : Type} [Inhabited α] (f : α → α → α) :
    ∀ (n : Nat) (leaves : List α), leaves.length ≤ n →
      ∀ idx : Nat, idx < leaves.length → 2 ≤ leaves.length →
        mix_tree f leaves [] idx ≠ [] := by
  intro n
  induction n with
  | zero =>
    intro leaves hl idx hi h2
    omega
  | succ n ih =>
    intro leaves hl idx hi h2
    have h1 : 1 < leaves.length := by omega
    rw [mix_tree_step f _ _ _ h1, mix_tree_append]
    by_cases he : idx % 2 = 0
    · by_cases hlt : idx + 1 < leaves.length
      · rw [if_pos he, if_pos hlt]
        simp
      · rw [if_pos he, if_neg hlt]
        -- the target is the carried trailing element: leaves.length = idx + 1 is odd ≥ 3
        have hodd : leaves.length = idx + 1 := by omega
        have h3 : 3 ≤ leaves.length := by omega
        have hup2 : 2 ≤ (up_layer f leaves).length := by
          rw [up_layer_length]
          omega
        have hupn : (up_layer f leaves).length ≤ n := by
          rw [up_layer_length]
          omega
        have hidx2 : idx / 2 < (up_layer f leaves).length := by
          rw [up_layer_length]
          omega
        simpa using ih (up_layer f leaves) hupn (idx / 2) hidx2 hup2
    · rw [if_neg he]
      simp

theorem mix_tree_length_le {α : Type} [Inhabited α] (f : α → α → α) :
    ∀ (n : Nat) (leaves : List α), leaves.length ≤ n →
      ∀ idx : Nat, (mix_tree f leaves [] idx).length ≤ Nat.clog 2 leaves.length := by
  intro n
  induction n with
  | zero =>
    intro leaves hl idx
    rw [mix_tree_of_le_one f _ _ _ (by omega)]
    simp
  | succ n ih =>
    intro leaves hl idx
    by_cases h1 : 1 < leaves.length
    · rw [mix_tree_step f _ _ _ h1, mix_tree_append]
      have hupn : (up_layer f leaves).length ≤ n := by
        rw [up_layer_length]
        omega
      have hrec := ih (up_layer f leaves) hupn (idx / 2)
      have hclog : Nat.clog 2 leaves.length
          = Nat.clog 2 ((leaves.length + 1) / 2) + 1 :=
        Nat.clog_of_two_le (by omega) (by omega)
      have hup : (up_layer f leaves).length = (leaves.length + 1) / 2 :=
        up_layer_length f leaves
      rw [List.length_append]
      have hpre : (if idx % 2 = 0 then
            if idx + 1 < leaves.length then
              ([] : List (Node α)) ++ [⟨leaves.getD (idx + 1) default, Side.RIGHT⟩]
            else []
          else ([] : List (Node α)) ++ [⟨leaves.getD (idx - 1) default, Side.LEFT⟩]).length ≤ 1 := by
        by_cases he : idx % 2 = 0
        · by_cases hlt : idx + 1 < leaves.length
          · rw [if_pos he, if_pos hlt]; simp
          · rw [if_pos he, if_neg hlt]; simp
        · rw [if_neg he]; simp
      rw [hup] at hrec
      omega
    · rw [mix_tree_of_le_one f _ _ _ (by omega)]
      simp

theorem getD_take {α : Type} [Inhabited α] :
    ∀ (l : List α) (n i : Nat), i < n →
      (l.take n).getD i default = l.getD i default := by
  intro l
  induction l with
  | nil => intro n i _; simp
  | cons a rest ih =>
    intro n i hin
    match n, i with
    | m + 1, 0 => simp
    | m + 1, j + 1 =>
      simp only [List.take_succ_cons, List.getD_cons_succ]
      exact ih m j (by omega)

theorem getD_drop {α : Type} [Inhabited α] :
    ∀ (l : List α) (n i : Nat),
      (l.drop n).getD i default = l.getD (n + i) default := by
  intro l
  induction l with
  | nil => intro n i; simp
  | cons a rest ih =>
    intro n i
    match n with
    | 0 => simp
    | m + 1 =>
      simp only [List.drop_succ_cons]
      have : m + 1 + i = (m + i) + 1 := by omega
      rw [this, List.getD_cons_succ]
      exact ih m i

theorem getD_mem {α : Type} [Inhabited α] (l : List α) (i : Nat) (h : i < l.length) :
    l.getD i default ∈ l := by
  rw [List.getD_eq_getElem l default h]
  exact List.getElem_mem h

theorem make_proof_of_none {α : Type} [DecidableEq α] [Inhabited α] (f : α → α → α)
    (leafs : List α) (pf : List (Node α)) (leaf : α)
    (h : listIndex leaf leafs = none) :
    make_proof f leafs pf leaf = .error "Leaf does not exist in the tree" := by
  conv_lhs => rw [make_proof]
  split
  · rfl
  · next index heq =>
    rw [h] at heq
    exact absurd heq (by simp)

theorem make_proof_of_some {α : Type} [DecidableEq α] [Inhabited α] (f : α → α → α)
    (leafs : List α) (pf : List (Node α)) (leaf : α) (index : Nat)
    (h : listIndex leaf leafs = some index) :
    make_proof f leafs pf leaf =
      (if is_power_2 leafs.length = false then
        .ok (mix_tree f leafs [] index)
      else if leafs.length = 2 then
        if index = 1 then .ok ((pf ++ [Node.mk (leafs.getD 0 default) Side.LEFT]).reverse)
        else .ok ((pf ++ [Node.mk (leafs.getD 1 default) Side.RIGHT]).reverse)
      else
        if 2 * index < leafs.length then
          make_proof f (half leafs).1
            (pf ++ [Node.mk (make_root f (half leafs).2) Side.RIGHT]) leaf
        else
          make_proof f (half leafs).2
            (pf ++ [Node.mk (make_root f (half leafs).1) Side.LEFT]) leaf) := by
  conv_lhs => rw [make_proof]
  split
  · next heq =>
    rw [h] at heq
    exact absurd heq (by simp)
  · next index' heq =>
    rw [h] at heq
    obtain rfl : index' = index := by
      have := Option.some.inj heq
      omega
    rfl

theorem make_proof_pow2 {α : Type} [DecidableEq α] [Inhabited α] (f : α → α → α) :
    ∀ (k : Nat), 1 ≤ k → ∀ (leafs : List α) (pf : List (Node α)) (leaf : α),
      leafs.length = 2 ^ k → leaf ∈ leafs →
      ∃ q : List (Node α),
        make_proof f leafs pf leaf = .ok ((pf ++ q).reverse) ∧
        fold_hash f leaf q.reverse = make_root f leafs ∧
        q.length = k := by
  intro k hk
  induction k, hk using Nat.le_induction with
  | base =>
    intro leafs pf leaf hlen hmem
    obtain ⟨a, b, rfl⟩ := List.length_eq_two.mp (by simpa using hlen)
    have h21 : (2 : Nat) ^ 1 = 2 := by norm_num
    have hpow : is_power_2 2 = true := by
      have h := is_power_2_pow 1
      rwa [h21] at h
    by_cases hab : a = leaf
    · have hidx : listIndex leaf [a, b] = some 0 := by simp [listIndex, hab]
      rw [make_proof_of_some f _ pf leaf 0 hidx, if_neg (by simp [hpow]), if_pos (by simp),
        if_neg (by omega)]
      refine ⟨[Node.mk b Side.RIGHT], by simp, ?_, by simp⟩
      subst hab
      rw [make_root_pair]
      simp [fold_hash, fold_step]
    · have hb : b = leaf := by
        rcases List.mem_cons.mp hmem with h1 | h1
        · exact absurd h1.symm hab
        · exact (List.mem_singleton.mp h1).symm
      have hidx : listIndex leaf [a, b] = some 1 := by simp [listIndex, hab, hb]
      rw [make_proof_of_some f _ pf leaf 1 hidx, if_neg (by simp [hpow]), if_pos (by simp),
        if_pos (by omega)]
      refine ⟨[Node.mk a Side.LEFT], by simp, ?_, by simp⟩
      subst hb
      rw [make_root_pair]
      simp [fold_hash, fold_step]
  | succ k hk ih =>
    intro leafs pf leaf hlen hmem
    have hp : 2 ^ (k + 1) = 2 * 2 ^ k := by ring
    have hkpos : 1 ≤ 2 ^ k := Nat.one_le_two_pow
    have hlen4 : 4 ≤ leafs.length := by
      have h4 : (4 : Nat) = 2 ^ 2 := by norm_num
      rw [hlen, h4]
      exact Nat.pow_le_pow_right (by omega) (by omega)
    have hpow : is_power_2 leafs.length = true := by
      rw [hlen]
      exact is_power_2_pow (k + 1)
    obtain ⟨idx, hidx⟩ := listIndex_isSome_of_mem hmem
    have hlt : idx < leafs.length := listIndex_lt_length hidx
    have hgetD : leafs.getD idx default = leaf := listIndex_getD hidx
    have hdiv : leafs.length / 2 = 2 ^ k := by omega
    have hL : (half leafs).1.length = 2 ^ k := by
      simp only [half, List.length_take]
      omega
    have hR : (half leafs).2.length = 2 ^ k := by
      simp only [half, List.length_drop]
      omega
    have hsplit : (half leafs).1 ++ (half leafs).2 = leafs := by
      simp [half]
    have hroot : f (make_root f (half leafs).1) (make_root f (half leafs).2)
        = make_root f leafs := by
      conv_rhs => rw [← hsplit]
      exact (make_root_append_pow f k _ _ hL hR).symm
    rw [make_proof_of_some f leafs pf leaf idx hidx, if_neg (by simp [hpow]),
      if_neg (by omega)]
    by_cases hside : 2 * idx < leafs.length
    · rw [if_pos hside]
      have hidxL : idx < 2 ^ k := by omega
      have hmemL : leaf ∈ (half leafs).1 := by
        have : (half leafs).1.getD idx default = leaf := by
          simp only [half]
          rw [getD_take leafs (leafs.length / 2) idx (by omega)]
          exact hgetD
        rw [← this]
        exact getD_mem _ idx (by omega)
      obtain ⟨q', hok, hfold, hqlen⟩ :=
        ih (half leafs).1 (pf ++ [Node.mk (make_root f (half leafs).2) Side.RIGHT]) leaf hL hmemL
      refine ⟨Node.mk (make_root f (half leafs).2) Side.RIGHT :: q', ?_, ?_, by simp [hqlen]⟩
      · rw [hok]
        simp
      · have hrev : (Node.mk (make_root f (half leafs).2) Side.RIGHT :: q').reverse
            = q'.reverse ++ [Node.mk (make_root f (half leafs).2) Side.RIGHT] := by
          simp
        rw [hrev, fold_hash_append, hfold]
        simp only [fold_hash, List.foldl_cons, List.foldl_nil, fold_step]
        simpa using hroot
    · rw [if_neg hside]
      have hidxR : 2 ^ k ≤ idx := by omega
      have hmemR : leaf ∈ (half leafs).2 := by
        have : (half leafs).2.getD (idx - 2 ^ k) default = leaf := by
          simp only [half]
          rw [getD_drop leafs (leafs.length / 2) (idx - 2 ^ k)]
          have : leafs.length / 2 + (idx - 2 ^ k) = idx := by omega
          rw [this]
          exact hgetD
        rw [← this]
        exact getD_mem _ (idx - 2 ^ k) (by omega)
      obtain ⟨q', hok, hfold, hqlen⟩ :=
        ih (half leafs).2 (pf ++ [Node.mk (make_root f (half leafs).1) Side.LEFT]) leaf hR hmemR
      refine ⟨Node.mk (make_root f (half leafs).1) Side.LEFT :: q', ?_, ?_, by simp [hqlen]⟩
      · rw [hok]
        simp
      · have hrev : (Node.mk (make_root f (half leafs).1) Side.LEFT :: q').reverse
            = q'.reverse ++ [Node.mk (make_root f (half leafs).1) Side.LEFT] := by
          simp
        rw [hrev, fold_hash_append, hfold]
        simp only [fold_hash, List.foldl_cons, List.foldl_nil, fold_step]
        simpa using hroot

theorem make_proof_complete {α : Type} [DecidableEq α] [Inhabited α] (f : α → α → α)
    (leafs : List α) (leaf : α) (h2 : 2 ≤ leafs.length) (hmem : leaf ∈ leafs) :
    ∃ p : List (Node α),
      make_proof f leafs [] leaf = .ok p ∧ p ≠ [] ∧
      fold_hash f leaf p = make_root f leafs ∧
      p.length ≤ Nat.clog 2 leafs.length ∧
      (is_power_2 leafs.length = true → p.length = Nat.clog 2 leafs.length) := by
  obtain ⟨idx, hidx⟩ := listIndex_isSome_of_mem hmem
  have hlt : idx < leafs.length := listIndex_lt_length hidx
  have hgetD : leafs.getD idx default = leaf := listIndex_getD hidx
  cases hpw : is_power_2 leafs.length with
  | false =>
    rw [make_proof_of_some f leafs [] leaf idx hidx, if_pos hpw]
    refine ⟨mix_tree f leafs [] idx, rfl,
      mix_tree_ne_nil f leafs.length leafs (le_refl _) idx hlt h2, ?_,
      mix_tree_length_le f leafs.length leafs (le_refl _) idx, ?_⟩
    · rw [← hgetD]
      exact mix_tree_fold f leafs.length leafs (le_refl _) idx hlt
    · intro hcontr
      exact absurd hcontr (by simp)
  | true =>
    obtain ⟨k, hk⟩ := exists_pow_of_is_power_2 hpw
    have hk1 : 1 ≤ k := by
      by_contra hc
      have hk0 : k = 0 := by omega
      rw [hk0] at hk
      simp at hk
      omega
    obtain ⟨q, hok, hfold, hqlen⟩ := make_proof_pow2 f k hk1 leafs [] leaf hk hmem
    have hclog : Nat.clog 2 leafs.length = k := by
      rw [hk]
      exact Nat.clog_pow 2 k (by omega)
    refine ⟨q.reverse, by simpa using hok, ?_, hfold, ?_, fun _ => ?_⟩
    · intro hc
      have : q.length = 0 := by
        have := congrArg List.length hc
        simpa using this
      omega
    · rw [hclog]
      simpa using Nat.le_of_eq hqlen
    · rw [hclog]
      simpa using hqlen

theorem is_power_2_one : is_power_2 1 = true := by
  simpa using is_power_2_pow 0

theorem leafs_length {α : Type} (t : MerkleTree α) :
    t.leafs.length = t.raw_leafs.length := by
  simp [MerkleTree.leafs]

theorem hash_mem_leafs {α : Type} (t : MerkleTree α) (raw : α)
    (h : raw ∈ t.raw_leafs) : t.hash_function raw t.emptyBytes ∈ t.leafs :=
  List.mem_map_of_mem _ h

/-- Behaviour of a single-leaf tree: the root is the hash of the only
leaf, but `proof` raises.  With one (hashed) leaf, `is_power_2 1` holds,
so `make_proof` takes the power-of-two branch, splits `[h]` into `[]`
and `[h]`, recurses into the empty left half (`0 < 1 / 2` under float
division), and the lookup in `[]` raises `ValueError`. -/
theorem single_leaf_root_proof {α : Type} [DecidableEq α] [Inhabited α]
    (t : MerkleTree α) (a : α) (h : t.raw_leafs = [a]) :
    t.root = t.hash_function a t.emptyBytes ∧
    t.proof a = .error "Leaf does not exist in the tree" := by
  have hleafs : t.leafs = [t.hash_function a t.emptyBytes] := by
    simp [MerkleTree.leafs, h]
  constructor
  · rw [MerkleTree.root, hleafs, make_root_single]
  · rw [MerkleTree.proof, hleafs]
    have hidx : listIndex (t.hash_function a t.emptyBytes)
        [t.hash_function a t.emptyBytes] = some 0 := by
      simp [listIndex]
    rw [make_proof_of_some t.hash_function _ [] _ 0 hidx]
    have hp1 : is_power_2 ([t.hash_function a t.emptyBytes] : List α).length = true := by
      simpa using is_power_2_one
    rw [if_neg (by simp [is_power_2_one]), if_neg (by simp), if_pos (by simp)]
    have hhalf1 : (half [t.hash_function a t.emptyBytes]).1 = ([] : List α) := by
      simp [half]
    rw [hhalf1, make_proof_of_none t.hash_function [] _ _ rfl]

/-- Concrete injective-enough hash stub used for witnesses and
counterexamples. -/
def hashW : Nat → Nat → Nat := fun x y => 2 * x + 3 * y + 1

/-- Concrete single-leaf tree. -/
def t1 : MerkleTree Nat := ⟨hashW, 0, [5]⟩

/-- Concrete two-leaf tree. -/
def t2 : MerkleTree Nat := ⟨hashW, 0, [10, 20]⟩

/-- Concrete three-leaf tree (not a power of two). -/
def t3 : MerkleTree Nat := ⟨hashW, 0, [10, 20, 30]⟩

/-- Concrete four-leaf tree (a power of two). -/
def t4 : MerkleTree Nat := ⟨hashW, 0, [1, 2, 3, 4]⟩

theorem is_power_2_two : is_power_2 2 = true := by
  simpa using is_power_2_pow 1

theorem is_power_2_three : is_power_2 3 = false := by
  simp [is_power_2]

/-- C2: for every non-empty list of leaf hashes, `make_root` computes the
root by repeatedly replacing each non-overlapping left-to-right pair
`(h[2i], h[2i+1])` of the current level with `combine(h[2i], h[2i+1])`,
carrying an unpaired trailing element of an odd-length level forward
unchanged into the next level, and repeating until exactly one element
remains, which is returned: it coincides with the claim-side recursion
`spec_root` built from `pairUp`. -/
theorem make_root_is_pairwise_carry_reduction {α : Type} [Inhabited α]
    (f : α → α → α) (l : List α) (_h : l ≠ []) :
    make_root f l = spec_root f l :=
  make_root_eq_spec_root f l

/-- Witness for C2 at the concrete level `[1, 2, 3]`. -/
theorem make_root_is_pairwise_carry_reduction_witness :
    make_root hashW [1, 2, 3] = spec_root hashW [1, 2, 3] :=
  make_root_is_pairwise_carry_reduction hashW [1, 2, 3] (by simp)

/-- C10: for every list of hashes of length greater than one, one
iteration of the level-building loop inside `make_root`
(`make_root_step`) produces exactly the same next-level list as
`up_layer` applied to that list. -/
theorem make_root_loop_step_eq_up_layer {α : Type} [Inhabited α]
    (f : α → α → α) (l : List α) (_h : 1 < l.length) :
    make_root_step f l = up_layer f l := by
  rw [make_root_step_eq_pairUp, up_layer_eq_pairUp]

/-- Witness for C10 at the concrete level `[4, 5, 6]`. -/
theorem make_root_loop_step_eq_up_layer_witness :
    make_root_step hashW [4, 5, 6] = up_layer hashW [4, 5, 6] :=
  make_root_loop_step_eq_up_layer hashW [4, 5, 6] (by simp)

/-- C7: the verification fold step is determined by the proof node's side
tag: a RIGHT node produces `combine(acc, node.hash)` with new side LEFT
and a LEFT node produces `combine(node.hash, acc)` with new side RIGHT,
identically whether the accumulator is the raw starting hash (`Sum.inl`)
or an already-positioned node (`Sum.inr`, any stored side `s`). -/
theorem verify_fold_step_by_side {α : Type} (f : α → α → α) (a h : α) (s : Side) :
    concat_nodes f (.inl a) ⟨h, Side.RIGHT⟩ = .inr ⟨f a h, Side.LEFT⟩ ∧
    concat_nodes f (.inl a) ⟨h, Side.LEFT⟩ = .inr ⟨f h a, Side.RIGHT⟩ ∧
    concat_nodes f (.inr ⟨a, s⟩) ⟨h, Side.RIGHT⟩ = .inr ⟨f a h, Side.LEFT⟩ ∧
    concat_nodes f (.inr ⟨a, s⟩) ⟨h, Side.LEFT⟩ = .inr ⟨f h a, Side.RIGHT⟩ :=
  ⟨rfl, rfl, rfl, rfl⟩

/-- C3 counterexample: for the concrete single-leaf tree `t1` the claim
"root equals the hash of the only leaf AND proof of that leaf returns
the empty sequence" is false: `proof` raises the leaf-lookup error
instead of returning `[]`. -/
theorem single_leaf_empty_proof_claim_false :
    ¬ (t1.root = t1.hash_function 5 t1.emptyBytes ∧
       t1.proof 5 = Except.ok ([] : List (Node Nat))) := by
  intro hc
  have herr := (single_leaf_root_proof t1 5 rfl).2
  rw [herr] at hc
  exact absurd hc.2 (by simp)

/-- C3 (amended): for a tree constructed from exactly one leaf the root
equals the hash of that only leaf (zero combination steps), but `proof`
of that leaf raises the leaf-lookup `ValueError` (the power-of-two
branch recurses into an empty half) instead of returning the empty
sequence. -/
theorem single_leaf_root_hash_proof_raises {α : Type} [DecidableEq α] [Inhabited α]
    (t : MerkleTree α) (a : α) (h : t.raw_leafs = [a]) :
    t.root = t.hash_function a t.emptyBytes ∧
    t.proof a = .error "Leaf does not exist in the tree" :=
  single_leaf_root_proof t a h

/-- Witness for C3 (amended) at the concrete single-leaf tree `t1`. -/
theorem single_leaf_root_hash_proof_raises_witness :
    t1.root = t1.hash_function 5 t1.emptyBytes ∧
    t1.proof 5 = .error "Leaf does not exist in the tree" :=
  single_leaf_root_hash_proof_raises t1 5 rfl

/-- C4 counterexample: on the empty proof sequence (a well-typed input
the claim explicitly includes) `verify` does not return a boolean: the
fold result is still the raw hash, so the source's `.data` access raises
`AttributeError`, modelled as `none`. -/
theorem verify_empty_proof_raises : t2.verify [] 10 = none := rfl

/-- C4 (amended): for every NON-empty proof sequence `verify` is total
and side-effect-free: it returns `some` boolean, which is `true` exactly
when the replayed fold reconstructs the root, so a proof that does not
reconstruct the root yields the normal boolean result `false`, not an
error; on the empty proof sequence it raises (`none`). -/
theorem verify_total_on_nonempty_proof {α : Type} [DecidableEq α] [Inhabited α]
    (t : MerkleTree α) (p : List (Node α)) (raw : α) (hp : p ≠ []) :
    t.verify p raw
      = some (decide
          (fold_hash t.hash_function (t.hash_function raw t.emptyBytes) p = t.root)) :=
  verify_eq_fold t p raw hp

/-- Witness for C4 (amended): a deliberately wrong singleton proof for
`t2` evaluates to a boolean (in fact `false`), not an error. -/
theorem verify_total_on_nonempty_proof_witness :
    t2.verify [⟨99, Side.LEFT⟩] 10
      = some (decide
          (fold_hash t2.hash_function (t2.hash_function 10 t2.emptyBytes)
            [⟨99, Side.LEFT⟩] = t2.root)) :=
  verify_total_on_nonempty_proof t2 [⟨99, Side.LEFT⟩] 10 (by simp)

/-- C5 (amended): calling `proof` with a raw leaf whose hash is not in
the tree's hashed-leaf sequence fails with the LeafNotFound error at the
point of lookup; for a leaf whose hash is present, this lookup never
fails, and on a tree with at least two leaves `proof` raises no error at
all.  (On a single-leaf tree `proof` of the present leaf still errors —
see the counterexample.) -/
theorem proof_leaf_not_found {α : Type} [DecidableEq α] [Inhabited α]
    (t : MerkleTree α) (raw : α) :
    (t.hash_function raw t.emptyBytes ∉ t.leafs →
      t.proof raw = .error "Leaf does not exist in the tree") ∧
    (2 ≤ t.raw_leafs.length → t.hash_function raw t.emptyBytes ∈ t.leafs →
      ∃ p, t.proof raw = .ok p) := by
  constructor
  · intro hnot
    rw [MerkleTree.proof,
      make_proof_of_none _ _ _ _ (listIndex_eq_none_of_not_mem hnot)]
  · intro h2 hmem
    have hlen : 2 ≤ t.leafs.length := by
      rw [leafs_length]
      exact h2
    obtain ⟨p, hok, _, _, _, _⟩ :=
      make_proof_complete t.hash_function t.leafs _ hlen hmem
    exact ⟨p, hok⟩

/-- Witness for C5 (amended) on the three-leaf tree `t3`: an absent leaf
errors, a present leaf succeeds. -/
theorem proof_leaf_not_found_witness :
    t3.proof 999 = .error "Leaf does not exist in the tree" ∧
    ∃ p, t3.proof 10 = .ok p :=
  ⟨(proof_leaf_not_found t3 999).1 (by decide),
   (proof_leaf_not_found t3 10).2 (by decide) (by decide)⟩

/-- C5 counterexample: on the single-leaf tree `t1` the leaf hash IS
present in the hashed-leaf sequence, yet `proof` still raises the
LeafNotFound error (from the recursive lookup in an empty half), so
"present implies no such error" fails as stated. -/
theorem proof_error_on_present_single_leaf :
    (t1.hash_function 5 t1.emptyBytes ∈ t1.leafs) ∧
    t1.proof 5 = .error "Leaf does not exist in the tree" :=
  ⟨by decide, (single_leaf_root_proof t1 5 rfl).2⟩

/-- C1 (amended): for every tree with at least two leaves and every raw
leaf in its leaf sequence, `proof` succeeds and `verify` of the produced
proof against that same leaf and the tree's root returns `true`.  (For a
single-leaf tree the claimed equation fails: `proof` raises — see the
counterexample.) -/
theorem verify_proof_roundtrip {α : Type} [DecidableEq α] [Inhabited α]
    (t : MerkleTree α) (raw : α) (h2 : 2 ≤ t.raw_leafs.length)
    (hmem : raw ∈ t.raw_leafs) :
    ∃ p, t.proof raw = .ok p ∧ t.verify p raw = some true := by
  have hlen : 2 ≤ t.leafs.length := by
    rw [leafs_length]
    exact h2
  obtain ⟨p, hok, hne, hfold, _, _⟩ :=
    make_proof_complete t.hash_function t.leafs _ hlen (hash_mem_leafs t raw hmem)
  refine ⟨p, hok, ?_⟩
  rw [verify_eq_fold t p raw hne, hfold]
  simp [MerkleTree.root]

/-- Witness for C1 (amended) on the three-leaf tree `t3`. -/
theorem verify_proof_roundtrip_witness :
    ∃ p, t3.proof 20 = .ok p ∧ t3.verify p 20 = some true :=
  verify_proof_roundtrip t3 20 (by decide) (by decide)

/-- C1 counterexample: for the concrete single-leaf tree `t1` (a
non-empty leaf sequence) no generated proof verifies: `proof` raises
instead of producing one, so `verify(proof(tree, leaf), leaf, root)`
never evaluates to `true`. -/
theorem verify_proof_roundtrip_single_leaf_fails :
    ¬ ∃ p, t1.proof 5 = .ok p ∧ t1.verify p 5 = some true := by
  intro hc
  obtain ⟨p, hok, _⟩ := hc
  rw [(single_leaf_root_proof t1 5 rfl).2] at hok
  exact absurd hok (by simp)

/-- C9 (amended): for every tree with at least two leaves and every raw
leaf present in it, the generated proof has length at most
`ceil(log2 n)` (`Nat.clog 2 n`) for `n` hashed leaves, with equality
when `n` is a power of two.  (For the single-leaf tree, also a power of
two, no proof is generated at all — see the counterexample.) -/
theorem proof_length_clog {α : Type} [DecidableEq α] [Inhabited α]
    (t : MerkleTree α) (raw : α) (h2 : 2 ≤ t.raw_leafs.length)
    (hmem : raw ∈ t.raw_leafs) :
    ∃ p, t.proof raw = .ok p ∧ p.length ≤ Nat.clog 2 t.leafs.length ∧
      (is_power_2 t.leafs.length = true →
        p.length = Nat.clog 2 t.leafs.length) := by
  have hlen : 2 ≤ t.leafs.length := by
    rw [leafs_length]
    exact h2
  obtain ⟨p, hok, _, _, hle, heq⟩ :=
    make_proof_complete t.hash_function t.leafs _ hlen (hash_mem_leafs t raw hmem)
  exact ⟨p, hok, hle, heq⟩

/-- Witness for C9 (amended) on the four-leaf (power-of-two) tree `t4`. -/
theorem proof_length_clog_witness :
    ∃ p, t4.proof 3 = .ok p ∧ p.length ≤ Nat.clog 2 t4.leafs.length ∧
      (is_power_2 t4.leafs.length = true →
        p.length = Nat.clog 2 t4.leafs.length) :=
  proof_length_clog t4 3 (by decide) (by decide)

/-- C9 counterexample: the single-leaf tree `t1` has a power-of-two leaf
count (`1 = 2^0`, so `ceil(log2 1) = 0`), and its only leaf is present,
yet no proof of length `0` is generated: `proof` raises. -/
theorem proof_length_single_leaf_fails :
    is_power_2 t1.leafs.length = true ∧ Nat.clog 2 t1.leafs.length = 0 ∧
    ¬ ∃ p, t1.proof 5 = .ok p := by
  have hlen : t1.leafs.length = 1 := rfl
  refine ⟨by rw [hlen]; exact is_power_2_one, by rw [hlen]; exact Nat.clog_one_right 2, ?_⟩
  intro hc
  obtain ⟨p, hok⟩ := hc
  rw [(single_leaf_root_proof t1 5 rfl).2] at hok
  exact absurd hok (by simp)

/-- C6: when the leaf count is not a power of two, `proof` dispatches to
the level-climbing `mix_tree` with an empty accumulator and the target's
index; at each level with more than one element `mix_tree` emits the
right neighbour `level[idx+1]` with side RIGHT when the index is even
and a right neighbour exists, emits nothing when the index is even
without a right neighbour (the carried-over trailing element), emits the
left neighbour `level[idx-1]` with side LEFT when the index is odd, and
then recurses on the next level `up_layer level` (the
pairwise-combine-with-carry rule, `pairUp`) with index `idx / 2`,
stopping with the accumulated proof once one element remains. -/
theorem general_branch_level_climb {α : Type} [DecidableEq α] [Inhabited α]
    (t : MerkleTree α) (raw : α) (idx : Nat) (f : α → α → α)
    (leaves : List α) (pf : List (Node α)) :
    (is_power_2 t.leafs.length = false →
      listIndex (t.hash_function raw t.emptyBytes) t.leafs = some idx →
      t.proof raw = .ok (mix_tree t.hash_function t.leafs [] idx)) ∧
    (1 < leaves.length →
      mix_tree f leaves pf idx
        = mix_tree f (up_layer f leaves)
            (if idx % 2 = 0 then
              if idx + 1 < leaves.length then
                pf ++ [⟨leaves.getD (idx + 1) default, Side.RIGHT⟩]
              else pf
            else pf ++ [⟨leaves.getD (idx - 1) default, Side.LEFT⟩])
            (idx / 2)) ∧
    (leaves.length = 1 → mix_tree f leaves pf idx = pf) ∧
    up_layer f leaves = pairUp f leaves := by
  refine ⟨?_, fun h1 => mix_tree_step f leaves pf idx h1,
    fun h1 => mix_tree_of_le_one f leaves pf idx (by omega),
    up_layer_eq_pairUp f leaves⟩
  intro hpw hidx
  rw [MerkleTree.proof, make_proof_of_some t.hash_function t.leafs [] _ idx hidx,
    if_pos hpw]

/-- Witness for C6 on the three-leaf tree `t3` (leaf `30`, hashed level
`[21, 41, 61]`, index `2`: the carried trailing element) plus a
single-element level stop. -/
theorem general_branch_level_climb_witness :
    (t3.proof 30 = .ok (mix_tree t3.hash_function t3.leafs [] 2)) ∧
    (mix_tree hashW [21, 41, 61] [] 2
      = mix_tree hashW (up_layer hashW [21, 41, 61])
          (if 2 % 2 = 0 then
            if 2 + 1 < ([21, 41, 61] : List Nat).length then
              [] ++ [⟨([21, 41, 61] : List Nat).getD (2 + 1) default, Side.RIGHT⟩]
            else []
          else [] ++ [⟨([21, 41, 61] : List Nat).getD (2 - 1) default, Side.LEFT⟩])
          (2 / 2)) ∧
    (mix_tree hashW ([99] : List Nat) [] 0 = []) := by
  refine ⟨?_, ?_, ?_⟩
  · exact (general_branch_level_climb t3 30 2 hashW [21, 41, 61] []).1
      (by rw [show t3.leafs.length = 3 from rfl]; exact is_power_2_three) (by decide)
  · exact (general_branch_level_climb t3 30 2 hashW [21, 41, 61] []).2.1 (by decide)
  · exact (general_branch_level_climb t3 30 0 hashW [99] []).2.2.1 (by decide)

theorem is_power_2_pow_ge_two {k : Nat} (hk : 2 ≤ k) (n : Nat) (hn : n = 2 ^ k) :
    4 ≤ n := by
  have h4 : (4 : Nat) = 2 ^ 2 := by norm_num
  rw [hn, h4]
  exact Nat.pow_le_pow_right (by omega) hk

/-- C8: when the leaf count is an exact power of two, `make_proof`
recursively halves the slice: in the base case of length 2 it emits the
sibling (`(leafs[1], RIGHT)` when the target's index is 0, i.e. the
first occurrence of the target is `leafs[0]`; `(leafs[0], LEFT)` when
the index is 1) and returns the reversed accumulated list, so the first
proof node is the sibling closest to the leaf and the last is nearest
the root; in the recursive case (length `2^k`, `k ≥ 2`) it appends
`(root(right half), RIGHT)` and recurses into the left half when the
index falls in the first half, otherwise `(root(left half), LEFT)` and
recurses into the right half. -/
theorem pow2_branch_halving {α : Type} [DecidableEq α] [Inhabited α]
    (f : α → α → α) (a b leaf : α) (leafs : List α) (pf : List (Node α))
    (idx k : Nat) :
    (leaf ∈ [a, b] →
      make_proof f [a, b] pf leaf
        = .ok ((pf ++ [if a = leaf then Node.mk b Side.RIGHT
            else Node.mk a Side.LEFT]).reverse)) ∧
    (2 ≤ k → leafs.length = 2 ^ k → listIndex leaf leafs = some idx →
      ((2 * idx < leafs.length →
        make_proof f leafs pf leaf
          = make_proof f (half leafs).1
              (pf ++ [Node.mk (make_root f (half leafs).2) Side.RIGHT]) leaf) ∧
      (¬ 2 * idx < leafs.length →
        make_proof f leafs pf leaf
          = make_proof f (half leafs).2
              (pf ++ [Node.mk (make_root f (half leafs).1) Side.LEFT]) leaf))) := by
  constructor
  · intro hmem
    by_cases hab : a = leaf
    · have hidx : listIndex leaf [a, b] = some 0 := by simp [listIndex, hab]
      rw [make_proof_of_some f _ pf leaf 0 hidx, if_neg (by simp [is_power_2_two]),
        if_pos (by simp), if_neg (by omega), if_pos hab]
      simp
    · have hb : b = leaf := by
        rcases List.mem_cons.mp hmem with h1 | h1
        · exact absurd h1.symm hab
        · exact (List.mem_singleton.mp h1).symm
      have hidx : listIndex leaf [a, b] = some 1 := by simp [listIndex, hab, hb]
      rw [make_proof_of_some f _ pf leaf 1 hidx, if_neg (by simp [is_power_2_two]),
        if_pos (by simp), if_pos (by omega), if_neg hab]
      simp
  · intro hk hlen hidx
    have hpow : is_power_2 leafs.length = true := by
      rw [hlen]
      exact is_power_2_pow k
    have h4 : 4 ≤ leafs.length := is_power_2_pow_ge_two hk leafs.length hlen
    rw [make_proof_of_some f leafs pf leaf idx hidx, if_neg (by simp [hpow]),
      if_neg (by omega)]
    constructor
    · intro hside
      rw [if_pos hside]
    · intro hside
      rw [if_neg hside]

/-- Witness for C8: the base case on the two-leaf level `[7, 9]` with
target `9`, and one recursive halving step on the four-leaf level
`[9, 2, 3, 4]` with target `9` (index 0, first half). -/
theorem pow2_branch_halving_witness :
    (make_proof hashW [7, 9] [] 9
      = .ok (([] ++ [if (7 : Nat) = 9 then Node.mk 9 Side.RIGHT
          else Node.mk 7 Side.LEFT]).reverse)) ∧
    (make_proof hashW [9, 2, 3, 4] [] 9
      = make_proof hashW (half [9, 2, 3, 4]).1
          ([] ++ [Node.mk (make_root hashW (half ([9, 2, 3, 4] : List Nat)).2)
            Side.RIGHT]) 9) :=
  ⟨(pow2_branch_halving hashW 7 9 9 [9, 2, 3, 4] [] 0 2).1 (by decide),
   ((pow2_branch_halving hashW 7 9 9 [9, 2, 3, 4] [] 0 2).2 (by decide) (by decide)
      (by decide)).1 (by decide)⟩
